import Mathlib

/-!
Shallow embedding of `crates/assistant_slash_command/src/assistant_slash_command.rs`
(the slash-command output model and its event-stream protocol), together with
theorems about the conversion functions `to_event_stream` / `from_event_stream`
and the `AfterCompletion` boolean conversion.

Rust strings are modelled as lists of UTF-8 code units (`List Nat`); byte
offsets, checked slicing (`str::get`, which fails when an endpoint is out of
bounds or not on a character boundary) and unchecked slicing (which panics in
the same situations) are modelled explicitly.
-/

deriving instance DecidableEq for Except

namespace SlashCmd

/-- The UTF-8 code units of a string, as natural numbers.  Used to build
concrete byte-level texts from string literals. -/
def utf8Bytes (s : String) : List Nat :=
  (s.data.flatMap String.utf8EncodeChar).map UInt8.toNat

/-- Rust `str::is_char_boundary`: `i` is a valid boundary when it is 0, the
total length, or an in-bounds position whose byte is not a UTF-8 continuation
byte (`0x80..=0xBF`). -/
def isCharBoundary (t : List Nat) (i : Nat) : Bool :=
  if i = 0 then true
  else if i = t.length then true
  else if h : i < t.length then
    decide ¬(128 ≤ t.get ⟨i, h⟩ ∧ t.get ⟨i, h⟩ < 192)
  else false

/-- Rust `str::get` on a `Range<usize>`: returns the slice when
`start ≤ end` and both endpoints are character boundaries, otherwise `none`. -/
def strGet (t : List Nat) (a b : Nat) : Option (List Nat) :=
  if a ≤ b ∧ isCharBoundary t a ∧ isCharBoundary t b then
    some ((t.drop a).take (b - a))
  else
    none

/-- `workspace::ui::IconName`, opaque to this crate: an enumerated token type
with decidable equality (only the constructors used here are listed). -/
inductive IconName where
  | Check
  | Code
  | FileCode
  | FileDoc
  | FileGit
  | FileToml
  deriving DecidableEq, Repr

/-- `serde_json::Value`, opaque to this crate: an equality-comparable
structured value. -/
inductive JsonValue where
  | null
  | bool (b : Bool)
  | str (s : String)
  | num (n : Int)
  deriving DecidableEq, Repr

/-- `std::ops::Range<usize>`: half-open byte range; Rust field `end` is
spelled `stop` because `end` is a Lean keyword. -/
structure ByteRange where
  start : Nat
  stop : Nat
  deriving DecidableEq, Repr

/-- `SlashCommandOutputSection<usize>`. -/
structure SlashCommandOutputSection where
  range : ByteRange
  icon : IconName
  label : String
  metadata : Option JsonValue
  deriving DecidableEq, Repr

/-- `SlashCommandContent`. -/
inductive SlashCommandContent where
  | Text (text : List Nat) (run_commands_in_text : Bool)
  deriving DecidableEq, Repr

/-- `SlashCommandEvent`. -/
inductive SlashCommandEvent where
  | StartSection (icon : IconName) (label : String) (metadata : Option JsonValue)
  | Content (content : SlashCommandContent)
  | EndSection (metadata : Option JsonValue)
  deriving DecidableEq, Repr

/-- `SlashCommandOutput`. -/
structure SlashCommandOutput where
  text : List Nat
  sections : List SlashCommandOutputSection
  run_commands_in_text : Bool
  deriving DecidableEq, Repr

/-- `SlashCommandOutput::default()`. -/
def SlashCommandOutput.default : SlashCommandOutput :=
  { text := [], sections := [], run_commands_in_text := false }

/-- `AfterCompletion`. -/
inductive AfterCompletion where
  | Run
  | Compose
  | Continue
  deriving DecidableEq, Repr

/-- `impl From<bool> for AfterCompletion`. -/
def AfterCompletion.fromBool (value : Bool) : AfterCompletion :=
  if value then AfterCompletion.Run else AfterCompletion.Continue

/-- `AfterCompletion::run`. -/
def AfterCompletion.run : AfterCompletion → Bool
  | AfterCompletion.Run => true
  | AfterCompletion.Compose => false
  | AfterCompletion.Continue => false

namespace SlashCommandOutput

/-- The events emitted for the inter-section gap preceding a section, if any:
the body of `if last_section_end < section.range.start { events.push(...) }`
in `to_event_stream`. -/
def gapEvents (text : List Nat) (rcit : Bool) (lastEnd : Nat) (start : Nat) :
    List SlashCommandEvent :=
  if lastEnd < start then
    [SlashCommandEvent.Content
      (SlashCommandContent.Text ((strGet text lastEnd start).getD []) rcit)]
  else
    []

/-- One iteration of the `for section in self.sections` loop of
`to_event_stream`: the gap content (if any), `StartSection`, the section's
content, `EndSection`. -/
def sectionEvents (text : List Nat) (rcit : Bool) (lastEnd : Nat)
    (s : SlashCommandOutputSection) : List SlashCommandEvent :=
  gapEvents text rcit lastEnd s.range.start ++
    [SlashCommandEvent.StartSection s.icon s.label s.metadata,
     SlashCommandEvent.Content
       (SlashCommandContent.Text
         ((strGet text s.range.start s.range.stop).getD []) rcit),
     SlashCommandEvent.EndSection s.metadata]

/-- The whole `for` loop of `to_event_stream`: the emitted events together
with the final value of `last_section_end`. -/
def sectionsEvents (text : List Nat) (rcit : Bool) (lastEnd : Nat) :
    List SlashCommandOutputSection → List SlashCommandEvent × Nat
  | [] => ([], lastEnd)
  | s :: rest =>
    let tail := sectionsEvents text rcit s.range.stop rest
    (sectionEvents text rcit lastEnd s ++ tail.1, tail.2)

/-- `SlashCommandOutput::to_event_stream`.  Returns `none` exactly when the
Rust code panics: the final trailing slice `self.text[last_section_end..]`
uses unchecked indexing, which panics when `last_section_end` is less than
the text length but not a character boundary.  All other slices are checked
(`get(..).unwrap_or_default()`). -/
def to_event_stream (o : SlashCommandOutput) : Option (List SlashCommandEvent) :=
  let loop := sectionsEvents o.text o.run_commands_in_text 0 o.sections
  if loop.2 < o.text.length then
    if isCharBoundary o.text loop.2 then
      some (loop.1 ++
        [SlashCommandEvent.Content
          (SlashCommandContent.Text (o.text.drop loop.2) o.run_commands_in_text)])
    else
      none
  else
    some loop.1

/-- One step of the `while let Some(event) = events.next()` loop of
`from_event_stream`, acting on the accumulated output and the currently open
section. -/
def fromEventStep (st : SlashCommandOutput × Option SlashCommandOutputSection)
    (e : SlashCommandEvent) : SlashCommandOutput × Option SlashCommandOutputSection :=
  match e with
  | SlashCommandEvent.StartSection icon label metadata =>
    let closed :=
      match st.2 with
      | some sec => st.1.sections ++ [sec]
      | none => st.1.sections
    let start := st.1.text.length
    ({ st.1 with sections := closed },
     some { range := { start := start, stop := start },
            icon := icon, label := label, metadata := metadata })
  | SlashCommandEvent.Content (SlashCommandContent.Text text rcit) =>
    let newText := st.1.text ++ text
    ({ st.1 with text := newText, run_commands_in_text := rcit },
     st.2.map fun sec => { sec with range := { sec.range with stop := newText.length } })
  | SlashCommandEvent.EndSection metadata =>
    match st.2 with
    | some sec =>
      ({ st.1 with sections := st.1.sections ++ [{ sec with metadata := metadata }] }, none)
    | none => (st.1, none)

/-- Folding `fromEventStep` over a list of (successful) events. -/
def processEvents (evs : List SlashCommandEvent)
    (st : SlashCommandOutput × Option SlashCommandOutputSection) :
    SlashCommandOutput × Option SlashCommandOutputSection :=
  evs.foldl fromEventStep st

/-- The `if let Some(section) = current_section { output.sections.push(section) }`
epilogue of `from_event_stream`. -/
def finalize (st : SlashCommandOutput × Option SlashCommandOutputSection) :
    SlashCommandOutput :=
  match st.2 with
  | some sec => { st.1 with sections := st.1.sections ++ [sec] }
  | none => st.1

/-- The event-consuming loop of `from_event_stream`, over an explicit list of
stream items (`Result<SlashCommandEvent>`): the first error item aborts and is
returned; otherwise the events are folded and the open section (if any) is
appended at the end. -/
def fromEventStreamGo {ε : Type} (st : SlashCommandOutput × Option SlashCommandOutputSection) :
    List (Except ε SlashCommandEvent) → Except ε SlashCommandOutput
  | [] => Except.ok (finalize st)
  | Except.error e :: _ => Except.error e
  | Except.ok ev :: rest => fromEventStreamGo (fromEventStep st ev) rest

/-- `SlashCommandOutput::from_event_stream`, with the failable event stream
modelled as a list of `Except` items. -/
def from_event_stream {ε : Type} (items : List (Except ε SlashCommandEvent)) :
    Except ε SlashCommandOutput :=
  fromEventStreamGo (SlashCommandOutput.default, none) items

end SlashCommandOutput

/-- Well-formedness of a section list over a byte text, following the code's
requirements for exact slicing: starting from cursor `lastEnd`, each section
satisfies `lastEnd ≤ start ≤ stop` (sections are non-overlapping with
non-decreasing starts) and both endpoints are character boundaries of the
text (hence within its length). -/
def sectionsWF (text : List Nat) : Nat → List SlashCommandOutputSection → Bool
  | _, [] => true
  | lastEnd, s :: rest =>
    decide (lastEnd ≤ s.range.start) && decide (s.range.start ≤ s.range.stop) &&
      isCharBoundary text s.range.start && isCharBoundary text s.range.stop &&
      sectionsWF text s.range.stop rest

/-- Well-formedness exactly as the specification words it (second definition,
for comparison with `sectionsWF`): sections non-overlapping with
non-decreasing starts, and no range endpoint exceeding the text length —
with no requirement that endpoints be character boundaries. -/
def specWF (len : Nat) : Nat → List SlashCommandOutputSection → Bool
  | _, [] => true
  | lastEnd, s :: rest =>
    decide (lastEnd ≤ s.range.start) && decide (s.range.start ≤ s.range.stop) &&
      decide (s.range.stop ≤ len) && specWF len s.range.stop rest

/-- Concatenation of the text chunks of a list of content payloads. -/
def catContent : List (List Nat × Bool) → List Nat
  | [] => []
  | c :: cs => c.1 ++ catContent cs

/-- Last-writer-wins accumulation of the `run_commands_in_text` flag over a
list of content payloads, starting from `f`. -/
def lastFlag (f : Bool) : List (List Nat × Bool) → Bool
  | [] => f
  | c :: cs => lastFlag c.2 cs

/-- The `Content` events corresponding to a list of content payloads. -/
def contentEvents (cs : List (List Nat × Bool)) : List SlashCommandEvent :=
  cs.map fun c => SlashCommandEvent.Content (SlashCommandContent.Text c.1 c.2)

namespace SlashCommandOutput

theorem processEvents_nil (st : SlashCommandOutput × Option SlashCommandOutputSection) :
    processEvents [] st = st := rfl

theorem processEvents_cons (e : SlashCommandEvent) (evs : List SlashCommandEvent)
    (st : SlashCommandOutput × Option SlashCommandOutputSection) :
    processEvents (e :: evs) st = processEvents evs (fromEventStep st e) := rfl

theorem processEvents_append (a b : List SlashCommandEvent)
    (st : SlashCommandOutput × Option SlashCommandOutputSection) :
    processEvents (a ++ b) st = processEvents b (processEvents a st) := by
  simp [processEvents, List.foldl_append]

theorem isCharBoundary_le {t : List Nat} {i : Nat} (h : isCharBoundary t i = true) :
    i ≤ t.length := by
  unfold isCharBoundary at h
  split at h
  · omega
  · split at h
    · omega
    · split at h
      · omega
      · exact absurd h (by simp)

theorem strGet_eq (t : List Nat) (a b : Nat) (hab : a ≤ b)
    (ha : isCharBoundary t a = true) (hb : isCharBoundary t b = true) :
    strGet t a b = some ((t.drop a).take (b - a)) := by
  simp [strGet, hab, ha, hb]

theorem take_append_slice (t : List Nat) (a b : Nat) (hab : a ≤ b) :
    t.take a ++ (t.drop a).take (b - a) = t.take b := by
  rw [← List.take_add]
  congr 1
  omega

theorem length_slice (t : List Nat) (a b : Nat) (hab : a ≤ b) (hbl : b ≤ t.length) :
    ((t.drop a).take (b - a)).length = b - a := by
  simp [List.length_take, List.length_drop]
  omega

/-- Consuming only successful items folds the events and finalizes. -/
theorem fromEventStreamGo_map_ok {ε : Type} (evs : List SlashCommandEvent) :
    ∀ st : SlashCommandOutput × Option SlashCommandOutputSection,
      fromEventStreamGo (ε := ε) st (evs.map Except.ok) =
        Except.ok (finalize (processEvents evs st)) := by
  induction evs with
  | nil => intro st; rfl
  | cons e evs ih =>
    intro st
    simpa [fromEventStreamGo, processEvents_cons] using ih (fromEventStep st e)

/-- Processing a run of `Content` events with a section open: the chunks are
appended to the text, the flag is overwritten by each chunk (last write
wins), and the open section's end is pushed to the new text length. -/
theorem processEvents_contentEvents (cs : List (List Nat × Bool)) :
    ∀ (out : SlashCommandOutput) (sec : SlashCommandOutputSection),
      sec.range.stop = out.text.length →
      processEvents (contentEvents cs) (out, some sec) =
        ({ out with
            text := out.text ++ catContent cs,
            run_commands_in_text := lastFlag out.run_commands_in_text cs },
         some { sec with
            range := { start := sec.range.start,
                       stop := out.text.length + (catContent cs).length } }) := by
  induction cs with
  | nil =>
    intro out sec h
    simp only [contentEvents, List.map_nil, processEvents_nil, catContent, lastFlag,
      List.append_nil, List.length_nil, Nat.add_zero, ← h]
  | cons c cs ih =>
    intro out sec h
    simp only [contentEvents, List.map_cons, processEvents_cons, fromEventStep,
      Option.map_some']
    rw [show (contentEvents cs = List.map
        (fun c => SlashCommandEvent.Content (SlashCommandContent.Text c.1 c.2)) cs) from rfl] at ih
    rw [ih _ _ rfl]
    simp [catContent, lastFlag, List.append_assoc, List.length_append, Nat.add_assoc]

/-- Processing a `StartSection` (which defensively closes any open section)
followed by a run of `Content` events: the new section opens at the current
end of the accumulated text and its end tracks the appended content. -/
theorem processEvents_start_contents (out : SlashCommandOutput)
    (cur : Option SlashCommandOutputSection) (icon : IconName) (lab : String)
    (m : Option JsonValue) (cs : List (List Nat × Bool)) :
    processEvents (SlashCommandEvent.StartSection icon lab m :: contentEvents cs) (out, cur) =
      ({ finalize (out, cur) with
          text := out.text ++ catContent cs,
          run_commands_in_text := lastFlag out.run_commands_in_text cs },
       some { range := { start := out.text.length,
                         stop := out.text.length + (catContent cs).length },
              icon := icon, label := lab, metadata := m }) := by
  cases cur with
  | none =>
    rw [processEvents_cons]
    rw [show fromEventStep (out, none) (SlashCommandEvent.StartSection icon lab m) =
      (out, some { range := { start := out.text.length, stop := out.text.length },
                   icon := icon, label := lab, metadata := m }) from rfl]
    rw [processEvents_contentEvents cs _ _ rfl]
    rfl
  | some s =>
    rw [processEvents_cons]
    rw [show fromEventStep (out, some s) (SlashCommandEvent.StartSection icon lab m) =
      ({ out with sections := out.sections ++ [s] },
       some { range := { start := out.text.length, stop := out.text.length },
              icon := icon, label := lab, metadata := m }) from rfl]
    rw [processEvents_contentEvents cs _ _ rfl]
    rfl

/-- The first error item in the stream aborts `from_event_stream` and is
returned as the result, whatever state was accumulated so far. -/
theorem fromEventStreamGo_error {ε : Type} (evs : List SlashCommandEvent) :
    ∀ (st : SlashCommandOutput × Option SlashCommandOutputSection) (e : ε)
      (rest : List (Except ε SlashCommandEvent)),
      fromEventStreamGo st (evs.map Except.ok ++ Except.error e :: rest) = Except.error e := by
  induction evs with
  | nil => intro st e rest; rfl
  | cons ev evs ih =>
    intro st e rest
    simpa [fromEventStreamGo] using ih (fromEventStep st ev) e rest

/-- Replaying the events of a well-formed section list onto an accumulator
that holds exactly the text up to the cursor reconstructs the text up to the
final cursor and appends exactly the original sections; the flag is set by
any emitted content. -/
theorem processEvents_sectionsEvents (text : List Nat) (rcit : Bool) :
    ∀ (ss : List SlashCommandOutputSection) (lastEnd : Nat)
      (secAcc : List SlashCommandOutputSection) (fAcc : Bool),
      sectionsWF text lastEnd ss = true →
      isCharBoundary text lastEnd = true →
      processEvents (sectionsEvents text rcit lastEnd ss).1
          ({ text := text.take lastEnd, sections := secAcc, run_commands_in_text := fAcc }, none) =
        ({ text := text.take (sectionsEvents text rcit lastEnd ss).2,
           sections := secAcc ++ ss,
           run_commands_in_text := if ss.isEmpty then fAcc else rcit }, none) := by
  intro ss
  induction ss with
  | nil =>
    intro lastEnd secAcc fAcc _ _
    simp [sectionsEvents, processEvents_nil]
  | cons s rest ih =>
    intro lastEnd secAcc fAcc hwf hb0
    simp only [sectionsWF, Bool.and_eq_true, decide_eq_true_eq] at hwf
    obtain ⟨⟨⟨⟨h1, h2⟩, h3⟩, h4⟩, h5⟩ := hwf
    have hstartle : s.range.start ≤ text.length := isCharBoundary_le h3
    have hstople : s.range.stop ≤ text.length := isCharBoundary_le h4
    rw [show (sectionsEvents text rcit lastEnd (s :: rest)).1
        = sectionEvents text rcit lastEnd s ++ (sectionsEvents text rcit s.range.stop rest).1
        from rfl]
    rw [processEvents_append]
    rw [show sectionEvents text rcit lastEnd s
        = gapEvents text rcit lastEnd s.range.start ++
          ((SlashCommandEvent.StartSection s.icon s.label s.metadata ::
            contentEvents [((strGet text s.range.start s.range.stop).getD [], rcit)]) ++
            [SlashCommandEvent.EndSection s.metadata])
        from rfl]
    rw [processEvents_append, processEvents_append]
    have hgap : processEvents (gapEvents text rcit lastEnd s.range.start)
        ({ text := text.take lastEnd, sections := secAcc, run_commands_in_text := fAcc }, none)
        = ({ text := text.take s.range.start, sections := secAcc,
             run_commands_in_text := if lastEnd < s.range.start then rcit else fAcc }, none) := by
      by_cases hg : lastEnd < s.range.start
      · simp only [gapEvents, if_pos hg]
        rw [strGet_eq text lastEnd s.range.start h1 hb0 h3]
        simp only [processEvents_cons, processEvents_nil, fromEventStep, Option.getD_some,
          Option.map_none', if_pos hg]
        rw [take_append_slice text lastEnd s.range.start h1]
      · have heq : lastEnd = s.range.start := by omega
        simp [gapEvents, hg, heq, processEvents_nil]
    rw [hgap, processEvents_start_contents]
    rw [strGet_eq text s.range.start s.range.stop h2 h3 h4]
    have hlt : (text.take s.range.start).length = s.range.start :=
      List.length_take_of_le hstartle
    have hls : ((text.drop s.range.start).take (s.range.stop - s.range.start)).length
        = s.range.stop - s.range.start := length_slice text _ _ h2 hstople
    simp only [catContent, List.append_nil, Option.getD_some, lastFlag, finalize, hlt, hls]
    rw [take_append_slice text s.range.start s.range.stop h2]
    have hss : s.range.start + (s.range.stop - s.range.start) = s.range.stop := by omega
    rw [hss]
    rw [show (processEvents [SlashCommandEvent.EndSection s.metadata]
        ({ text := text.take s.range.stop, sections := secAcc, run_commands_in_text := rcit },
         some { range := { start := s.range.start, stop := s.range.stop },
                icon := s.icon, label := s.label, metadata := s.metadata }))
        = ({ text := text.take s.range.stop, sections := secAcc ++ [s],
             run_commands_in_text := rcit }, none)
        from rfl]
    rw [ih s.range.stop (secAcc ++ [s]) rcit h5 h4]
    simp [sectionsEvents]

/-- The final cursor of the emission loop is a character boundary whenever
the sections are well formed and the initial cursor is one. -/
theorem sectionsEvents_snd_boundary (text : List Nat) (rcit : Bool) :
    ∀ (ss : List SlashCommandOutputSection) (lastEnd : Nat),
      sectionsWF text lastEnd ss = true →
      isCharBoundary text lastEnd = true →
      isCharBoundary text (sectionsEvents text rcit lastEnd ss).2 = true := by
  intro ss
  induction ss with
  | nil => intro lastEnd _ hb0; exact hb0
  | cons s rest ih =>
    intro lastEnd hwf _
    simp only [sectionsWF, Bool.and_eq_true, decide_eq_true_eq] at hwf
    obtain ⟨⟨⟨⟨_, _⟩, _⟩, h4⟩, h5⟩ := hwf
    exact ih s.range.stop h5 h4

/-- The final cursor of the emission loop is the last section's end (or the
initial cursor when there are no sections). -/
theorem sectionsEvents_snd_eq_foldl (text : List Nat) (rcit : Bool) :
    ∀ (ss : List SlashCommandOutputSection) (lastEnd : Nat),
      (sectionsEvents text rcit lastEnd ss).2 =
        ss.foldl (fun _ s => s.range.stop) lastEnd := by
  intro ss
  induction ss with
  | nil => intro lastEnd; rfl
  | cons s rest ih => intro lastEnd; exact ih s.range.stop

/-- The end offset of the last section of an output (0 when there are no
sections): the final value of `last_section_end` in `to_event_stream`. -/
def lastSectionEnd (o : SlashCommandOutput) : Nat :=
  o.sections.foldl (fun _ s => s.range.stop) 0

/-- C1 (amended): for every `Output` whose sections are chained
non-overlapping with non-decreasing starts and whose range endpoints are
character boundaries of the text (hence within its length), and which is not
the empty output carrying `run_commands_in_text = true` (an output that emits
no event at all, so the flag cannot survive the stream), converting with
`to_event_stream` and reconstructing with `from_event_stream` yields the
original output: same text, same section list in order with ranges, icons,
labels and metadata, and same `run_commands_in_text` flag. -/
theorem round_trip {ε : Type} (o : SlashCommandOutput)
    (hwf : sectionsWF o.text 0 o.sections = true)
    (hne : o.text ≠ [] ∨ o.sections ≠ [] ∨ o.run_commands_in_text = false) :
    (to_event_stream o).map (fun evs => from_event_stream (ε := ε) (evs.map Except.ok)) =
      some (Except.ok o) := by
  have hb0 : isCharBoundary o.text 0 = true := by simp [isCharBoundary]
  have hbl : isCharBoundary o.text
      (sectionsEvents o.text o.run_commands_in_text 0 o.sections).2 = true :=
    sectionsEvents_snd_boundary o.text o.run_commands_in_text o.sections 0 hwf hb0
  have hle : (sectionsEvents o.text o.run_commands_in_text 0 o.sections).2 ≤ o.text.length :=
    isCharBoundary_le hbl
  have hmain := processEvents_sectionsEvents o.text o.run_commands_in_text o.sections 0 [] false
    hwf hb0
  rw [List.take_zero] at hmain
  unfold to_event_stream
  by_cases hlt : (sectionsEvents o.text o.run_commands_in_text 0 o.sections).2 < o.text.length
  · rw [if_pos hlt, if_pos hbl]
    simp only [Option.map_some']
    unfold from_event_stream
    rw [fromEventStreamGo_map_ok, processEvents_append]
    rw [show (SlashCommandOutput.default, (none : Option SlashCommandOutputSection)) =
      ({ text := [], sections := [], run_commands_in_text := false },
        (none : Option SlashCommandOutputSection)) from rfl]
    rw [hmain]
    simp only [processEvents_cons, processEvents_nil, fromEventStep, Option.map_none',
      List.nil_append, finalize, List.take_append_drop]
  · rw [if_neg hlt]
    simp only [Option.map_some']
    unfold from_event_stream
    rw [fromEventStreamGo_map_ok]
    rw [show (SlashCommandOutput.default, (none : Option SlashCommandOutputSection)) =
      ({ text := [], sections := [], run_commands_in_text := false },
        (none : Option SlashCommandOutputSection)) from rfl]
    rw [hmain]
    have hstop : (sectionsEvents o.text o.run_commands_in_text 0 o.sections).2 =
        o.text.length := by omega
    rw [hstop, List.take_length]
    simp only [finalize, List.nil_append]
    cases hss : o.sections with
    | cons a l =>
      simp only [List.isEmpty_cons, if_neg]
      cases o
      simp_all
    | nil =>
      have htlen : o.text = [] := by
        have h0 : (sectionsEvents o.text o.run_commands_in_text 0 o.sections).2 = 0 := by
          rw [hss]; rfl
        rw [h0] at hstop
        exact List.eq_nil_of_length_eq_zero hstop.symm
      have hflag : o.run_commands_in_text = false := by
        rcases hne with h | h | h
        · exact absurd htlen h
        · exact absurd hss h
        · exact h
      cases o
      simp_all

/-- A checked slice whose two endpoints coincide yields the empty string,
whether or not the endpoint is a valid boundary. -/
theorem strGet_refl_getD (t : List Nat) (a : Nat) : (strGet t a a).getD [] = [] := by
  unfold strGet
  split
  · simp
  · rfl

/-- The emission loop distributes over appending section lists, threading the
cursor. -/
theorem sectionsEvents_append (text : List Nat) (rcit : Bool) :
    ∀ (pre post : List SlashCommandOutputSection) (lastEnd : Nat),
      sectionsEvents text rcit lastEnd (pre ++ post) =
        ((sectionsEvents text rcit lastEnd pre).1 ++
          (sectionsEvents text rcit (sectionsEvents text rcit lastEnd pre).2 post).1,
         (sectionsEvents text rcit (sectionsEvents text rcit lastEnd pre).2 post).2) := by
  intro pre
  induction pre with
  | nil => intro post lastEnd; simp [sectionsEvents]
  | cons s rest ih =>
    intro post lastEnd
    simp [sectionsEvents, ih, List.append_assoc]

/-- C1 witness: the round trip at a concrete well-formed output. -/
theorem round_trip_witness :
    (to_event_stream
      { text := utf8Bytes "ab",
        sections := [{ range := { start := 1, stop := 2 }, icon := IconName.Code,
                       label := "s", metadata := some (JsonValue.num 1) }],
        run_commands_in_text := true }).map
        (fun evs => from_event_stream (ε := Nat) (evs.map Except.ok)) =
      some (Except.ok
        { text := utf8Bytes "ab",
          sections := [{ range := { start := 1, stop := 2 }, icon := IconName.Code,
                         label := "s", metadata := some (JsonValue.num 1) }],
          run_commands_in_text := true }) :=
  round_trip _ (by decide) (by decide)

/-- C1 counterexample to the claim as stated: the empty output with
`run_commands_in_text = true` satisfies the claimed hypotheses (sections
non-overlapping with non-decreasing starts, endpoints within the text
length — vacuously, there are no sections), yet the round trip loses the
flag: no event is emitted, so reconstruction returns the default output with
the flag `false`. -/
theorem round_trip_as_stated_cex :
    specWF ([] : List Nat).length 0 ([] : List SlashCommandOutputSection) = true ∧
    (to_event_stream { text := [], sections := [], run_commands_in_text := true }).map
        (fun evs => from_event_stream (ε := Nat) (evs.map Except.ok)) ≠
      some (Except.ok { text := [], sections := [], run_commands_in_text := true }) := by
  decide

/-- C2: the output with text `"Apple\nCucumber\nBanana\n"` and sections
`[0,6)` and `[15,22)` labeled "Fruit" produces exactly the seven events
StartSection/Content/EndSection/Content/StartSection/Content/EndSection, and
`from_event_stream` on those events returns the original output. -/
theorem concrete_fruit_scenario :
    to_event_stream
        { text := utf8Bytes "Apple\nCucumber\nBanana\n",
          sections :=
            [{ range := { start := 0, stop := 6 }, icon := IconName.Check,
               label := "Fruit", metadata := none },
             { range := { start := 15, stop := 22 }, icon := IconName.Check,
               label := "Fruit", metadata := none }],
          run_commands_in_text := false } =
      some
        [SlashCommandEvent.StartSection IconName.Check "Fruit" none,
         SlashCommandEvent.Content (SlashCommandContent.Text (utf8Bytes "Apple\n") false),
         SlashCommandEvent.EndSection none,
         SlashCommandEvent.Content (SlashCommandContent.Text (utf8Bytes "Cucumber\n") false),
         SlashCommandEvent.StartSection IconName.Check "Fruit" none,
         SlashCommandEvent.Content (SlashCommandContent.Text (utf8Bytes "Banana\n") false),
         SlashCommandEvent.EndSection none] ∧
    from_event_stream (ε := Nat)
        ([SlashCommandEvent.StartSection IconName.Check "Fruit" none,
          SlashCommandEvent.Content (SlashCommandContent.Text (utf8Bytes "Apple\n") false),
          SlashCommandEvent.EndSection none,
          SlashCommandEvent.Content (SlashCommandContent.Text (utf8Bytes "Cucumber\n") false),
          SlashCommandEvent.StartSection IconName.Check "Fruit" none,
          SlashCommandEvent.Content (SlashCommandContent.Text (utf8Bytes "Banana\n") false),
          SlashCommandEvent.EndSection none].map Except.ok) =
      Except.ok
        { text := utf8Bytes "Apple\nCucumber\nBanana\n",
          sections :=
            [{ range := { start := 0, stop := 6 }, icon := IconName.Check,
               label := "Fruit", metadata := none },
             { range := { start := 15, stop := 22 }, icon := IconName.Check,
               label := "Fruit", metadata := none }],
          run_commands_in_text := false } := by
  decide

/-- C3: a zero-length section (start = stop, within text bounds) still emits
its `StartSection`, an empty `Content` event (not elided) and `EndSection`
within the emitted event list, and reprocessing those three events appends a
zero-length section at the current end of the accumulated text. -/
theorem empty_section_fidelity (text : List Nat) (rcit : Bool)
    (pre post : List SlashCommandOutputSection) (s : SlashCommandOutputSection)
    (lastEnd : Nat) (out : SlashCommandOutput)
    (h : s.range.start = s.range.stop) (hb : s.range.stop ≤ text.length) :
    (sectionsEvents text rcit lastEnd (pre ++ s :: post)).1 =
      (sectionsEvents text rcit lastEnd pre).1 ++
        (gapEvents text rcit (sectionsEvents text rcit lastEnd pre).2 s.range.start ++
          ([SlashCommandEvent.StartSection s.icon s.label s.metadata,
            SlashCommandEvent.Content (SlashCommandContent.Text [] rcit),
            SlashCommandEvent.EndSection s.metadata] ++
            (sectionsEvents text rcit s.range.stop post).1)) ∧
    processEvents
        [SlashCommandEvent.StartSection s.icon s.label s.metadata,
         SlashCommandEvent.Content (SlashCommandContent.Text [] rcit),
         SlashCommandEvent.EndSection s.metadata] (out, none) =
      ({ text := out.text,
         sections := out.sections ++
           [{ range := { start := out.text.length, stop := out.text.length },
              icon := s.icon, label := s.label, metadata := s.metadata }],
         run_commands_in_text := rcit }, none) := by
  constructor
  · rw [sectionsEvents_append]
    have hslice : (strGet text s.range.start s.range.stop).getD [] = [] := by
      rw [← h]; exact strGet_refl_getD text s.range.start
    simp [sectionsEvents, sectionEvents, hslice, List.append_assoc]
  · simp only [processEvents_cons, processEvents_nil, fromEventStep, Option.map_some']
    simp

/-- A concrete zero-length section, input of the C3 witness. -/
def emptySecW : SlashCommandOutputSection :=
  { range := { start := 1, stop := 1 }, icon := IconName.Code,
    label := "z", metadata := some (JsonValue.bool true) }

/-- A concrete accumulator output, input of the C3 witness. -/
def accOutW : SlashCommandOutput :=
  { text := utf8Bytes "a", sections := [], run_commands_in_text := false }

/-- C3 witness: the empty-section triple at a concrete input. -/
theorem empty_section_fidelity_witness :
    ((sectionsEvents (utf8Bytes "ab") true 0 ([] ++ emptySecW :: [])).1 =
      (sectionsEvents (utf8Bytes "ab") true 0 []).1 ++
        (gapEvents (utf8Bytes "ab") true (sectionsEvents (utf8Bytes "ab") true 0 []).2
            emptySecW.range.start ++
          ([SlashCommandEvent.StartSection emptySecW.icon emptySecW.label emptySecW.metadata,
            SlashCommandEvent.Content (SlashCommandContent.Text [] true),
            SlashCommandEvent.EndSection emptySecW.metadata] ++
            (sectionsEvents (utf8Bytes "ab") true emptySecW.range.stop []).1)) ∧
    processEvents
        [SlashCommandEvent.StartSection emptySecW.icon emptySecW.label emptySecW.metadata,
         SlashCommandEvent.Content (SlashCommandContent.Text [] true),
         SlashCommandEvent.EndSection emptySecW.metadata] (accOutW, none) =
      ({ text := accOutW.text,
         sections := accOutW.sections ++
           [{ range := { start := accOutW.text.length, stop := accOutW.text.length },
              icon := emptySecW.icon, label := emptySecW.label,
              metadata := emptySecW.metadata }],
         run_commands_in_text := true }, none)) :=
  empty_section_fidelity (utf8Bytes "ab") true [] [] emptySecW 0 accOutW
    (by decide) (by decide)

/-- C4: when a `StartSection` carrying metadata `m1` is followed (after any
`Content` events) by its matching `EndSection` carrying metadata `m2 ≠ m1`,
the section appended by the reconstruction carries `m2`: the closing
metadata overwrites the opening metadata. -/
theorem end_section_metadata_overrides (out : SlashCommandOutput)
    (cur : Option SlashCommandOutputSection) (icon : IconName) (lab : String)
    (m1 m2 : Option JsonValue) (cs : List (List Nat × Bool)) (hm : m1 ≠ m2) :
    processEvents
        (SlashCommandEvent.StartSection icon lab m1 ::
          (contentEvents cs ++ [SlashCommandEvent.EndSection m2])) (out, cur) =
      ({ text := out.text ++ catContent cs,
         sections := (finalize (out, cur)).sections ++
           [{ range := { start := out.text.length,
                         stop := out.text.length + (catContent cs).length },
              icon := icon, label := lab, metadata := m2 }],
         run_commands_in_text := lastFlag out.run_commands_in_text cs }, none) := by
  rw [show (SlashCommandEvent.StartSection icon lab m1 ::
        (contentEvents cs ++ [SlashCommandEvent.EndSection m2])) =
      ((SlashCommandEvent.StartSection icon lab m1 :: contentEvents cs) ++
        [SlashCommandEvent.EndSection m2]) from rfl]
  rw [processEvents_append, processEvents_start_contents]
  simp [processEvents_cons, processEvents_nil, fromEventStep, finalize]

/-- C4 witness: metadata override at a concrete input. -/
theorem end_section_metadata_overrides_witness :
    processEvents
        (SlashCommandEvent.StartSection IconName.Check "w" (some (JsonValue.num 1)) ::
          (contentEvents [(utf8Bytes "x", true)] ++
            [SlashCommandEvent.EndSection (some (JsonValue.num 2))])) (accOutW, none) =
      ({ text := accOutW.text ++ catContent [(utf8Bytes "x", true)],
         sections := (finalize (accOutW, none)).sections ++
           [{ range := { start := accOutW.text.length,
                         stop := accOutW.text.length +
                           (catContent [(utf8Bytes "x", true)]).length },
              icon := IconName.Check, label := "w", metadata := some (JsonValue.num 2) }],
         run_commands_in_text := lastFlag accOutW.run_commands_in_text
           [(utf8Bytes "x", true)] }, none) :=
  end_section_metadata_overrides accOutW none IconName.Check "w"
    (some (JsonValue.num 1)) (some (JsonValue.num 2)) [(utf8Bytes "x", true)] (by decide)

/-- C5: two `StartSection` events with no intervening `EndSection`
reconstruct two sections: when the second `StartSection` arrives, the open
first section is closed (keeping its opening metadata) and appended, ending
exactly at the accumulated text length, and the second opens at that same
offset. -/
theorem defensive_close_on_start (out : SlashCommandOutput) (cs : List (List Nat × Bool))
    (i1 i2 : IconName) (l1 l2 : String) (m1 m2 : Option JsonValue) :
    processEvents
        (SlashCommandEvent.StartSection i1 l1 m1 ::
          (contentEvents cs ++ [SlashCommandEvent.StartSection i2 l2 m2])) (out, none) =
      ({ text := out.text ++ catContent cs,
         sections := out.sections ++
           [{ range := { start := out.text.length,
                         stop := out.text.length + (catContent cs).length },
              icon := i1, label := l1, metadata := m1 }],
         run_commands_in_text := lastFlag out.run_commands_in_text cs },
       some { range := { start := out.text.length + (catContent cs).length,
                         stop := out.text.length + (catContent cs).length },
              icon := i2, label := l2, metadata := m2 }) ∧
    from_event_stream (ε := Nat)
        ((SlashCommandEvent.StartSection i1 l1 m1 ::
          (contentEvents cs ++ [SlashCommandEvent.StartSection i2 l2 m2])).map Except.ok) =
      Except.ok
        { text := catContent cs,
          sections :=
            [{ range := { start := 0, stop := (catContent cs).length },
               icon := i1, label := l1, metadata := m1 },
             { range := { start := (catContent cs).length, stop := (catContent cs).length },
               icon := i2, label := l2, metadata := m2 }],
          run_commands_in_text := lastFlag false cs } := by
  have hseg : ∀ out : SlashCommandOutput,
      processEvents
        (SlashCommandEvent.StartSection i1 l1 m1 ::
          (contentEvents cs ++ [SlashCommandEvent.StartSection i2 l2 m2])) (out, none) =
      ({ text := out.text ++ catContent cs,
         sections := out.sections ++
           [{ range := { start := out.text.length,
                         stop := out.text.length + (catContent cs).length },
              icon := i1, label := l1, metadata := m1 }],
         run_commands_in_text := lastFlag out.run_commands_in_text cs },
       some { range := { start := out.text.length + (catContent cs).length,
                         stop := out.text.length + (catContent cs).length },
              icon := i2, label := l2, metadata := m2 }) := by
    intro out
    rw [show (SlashCommandEvent.StartSection i1 l1 m1 ::
          (contentEvents cs ++ [SlashCommandEvent.StartSection i2 l2 m2])) =
        ((SlashCommandEvent.StartSection i1 l1 m1 :: contentEvents cs) ++
          [SlashCommandEvent.StartSection i2 l2 m2]) from rfl]
    rw [processEvents_append, processEvents_start_contents]
    simp [processEvents_cons, processEvents_nil, fromEventStep, finalize, List.length_append]
  refine ⟨hseg out, ?_⟩
  unfold from_event_stream
  rw [fromEventStreamGo_map_ok, hseg SlashCommandOutput.default]
  simp [finalize, SlashCommandOutput.default]

/-- C6: an `EndSection` processed while no section is open is a no-op: the
accumulated state (text, sections, flag) is unchanged and consumption simply
continues with no error. -/
theorem stray_end_section_noop {ε : Type} (out : SlashCommandOutput) (m : Option JsonValue)
    (items : List (Except ε SlashCommandEvent)) :
    fromEventStep (out, none) (SlashCommandEvent.EndSection m) = (out, none) ∧
    fromEventStreamGo (out, none) (Except.ok (SlashCommandEvent.EndSection m) :: items) =
      fromEventStreamGo (out, none) items :=
  ⟨rfl, rfl⟩

/-- C7: a stream that ends while a section is still open appends that
section: its range covers the content accumulated since it opened and its
metadata is the one supplied at `StartSection` time.  Stated for the
consuming loop from an arbitrary no-open-section state, and for
`from_event_stream` itself on a stream consisting of the unterminated
section. -/
theorem unterminated_section_appended {ε : Type} (out : SlashCommandOutput)
    (icon : IconName) (lab : String) (m : Option JsonValue) (cs : List (List Nat × Bool)) :
    fromEventStreamGo (ε := ε) (out, none)
        ((SlashCommandEvent.StartSection icon lab m :: contentEvents cs).map Except.ok) =
      Except.ok
        { text := out.text ++ catContent cs,
          sections := out.sections ++
            [{ range := { start := out.text.length,
                          stop := out.text.length + (catContent cs).length },
               icon := icon, label := lab, metadata := m }],
          run_commands_in_text := lastFlag out.run_commands_in_text cs } ∧
    from_event_stream (ε := ε)
        ((SlashCommandEvent.StartSection icon lab m :: contentEvents cs).map Except.ok) =
      Except.ok
        { text := catContent cs,
          sections := [{ range := { start := 0, stop := (catContent cs).length },
                         icon := icon, label := lab, metadata := m }],
          run_commands_in_text := lastFlag false cs } := by
  constructor
  · rw [fromEventStreamGo_map_ok, processEvents_start_contents]
    simp [finalize]
  · unfold from_event_stream
    rw [fromEventStreamGo_map_ok, processEvents_start_contents]
    simp [finalize, SlashCommandOutput.default]

/-- C8: the first error item in the event stream aborts `from_event_stream`:
the error is returned to the caller and the partially accumulated output is
discarded. -/
theorem stream_error_aborts {ε : Type} (evs : List SlashCommandEvent) (e : ε)
    (rest : List (Except ε SlashCommandEvent)) :
    from_event_stream (evs.map Except.ok ++ Except.error e :: rest) = Except.error e :=
  fromEventStreamGo_error evs (SlashCommandOutput.default, none) e rest

/-- C10: `to_event_stream` produces a finite event list without failing —
even for overlapping, out-of-order, or out-of-bounds section ranges — if and
only if the section list is empty, or the final section's end offset is at
least the text length, or that offset is a character boundary of the text:
every gap and section-content slice is checked (invalid bounds yield the
empty string), and only the trailing slice `text[last_section_end..]` can
fail, when the final end offset is an in-bounds non-boundary position. -/
theorem to_event_stream_total_iff (o : SlashCommandOutput) :
    (to_event_stream o).isSome = true ↔
      (o.sections = [] ∨ o.text.length ≤ lastSectionEnd o ∨
        isCharBoundary o.text (lastSectionEnd o) = true) := by
  have hsnd : (sectionsEvents o.text o.run_commands_in_text 0 o.sections).2 =
      lastSectionEnd o :=
    sectionsEvents_snd_eq_foldl o.text o.run_commands_in_text o.sections 0
  by_cases h1 : (sectionsEvents o.text o.run_commands_in_text 0 o.sections).2 < o.text.length
  · by_cases h2 : isCharBoundary o.text
        (sectionsEvents o.text o.run_commands_in_text 0 o.sections).2 = true
    · simp only [to_event_stream, if_pos h1, if_pos h2, Option.isSome_some, true_iff]
      right; right
      rw [← hsnd]
      exact h2
    · simp only [to_event_stream, if_pos h1, if_neg h2, Option.isSome_none,
        Bool.false_eq_true, false_iff]
      rintro (hs | hle | hbd)
      · have h0 : (sectionsEvents o.text o.run_commands_in_text 0 o.sections).2 = 0 := by
          rw [hs]; rfl
        have hb0 : isCharBoundary o.text 0 = true := by simp [isCharBoundary]
        rw [h0] at h2
        exact h2 hb0
      · rw [hsnd] at h1; omega
      · rw [hsnd] at h2; exact h2 hbd
  · simp only [to_event_stream, if_neg h1, Option.isSome_some, true_iff]
    right; left
    rw [← hsnd]
    omega

end SlashCommandOutput

/-- C9: the boolean conversion maps `true` to `Run` and `false` to
`Continue`, and no boolean input yields `Compose`. -/
theorem after_completion_bool_asymmetry :
    AfterCompletion.fromBool true = AfterCompletion.Run ∧
    AfterCompletion.fromBool false = AfterCompletion.Continue ∧
    ∀ b : Bool, AfterCompletion.fromBool b ≠ AfterCompletion.Compose := by
  decide

end SlashCmd
